import Mathlib

/-!
Verification development for the `env-secrets` command-line tool.

Strings from the TypeScript source are modelled as `List Char`; the JavaScript
string operations used by the code (`trim`, `trimStart`, `startsWith`,
`indexOf`, `slice`, `split(/\r?\n/)`) are given explicit models below, and the
functions of `src/cli/helpers.ts`, `src/vaults/utils.ts`,
`src/vaults/secretsmanager.ts`, `src/vaults/secretsmanager-admin.ts` and the
file-output branch of `src/index.ts` are translated definition by definition.
Exceptions become `Except` values.
-/

namespace EnvSecrets

instance {ε α : Type} [DecidableEq ε] [DecidableEq α] :
    DecidableEq (Except ε α) := fun x y =>
  match x, y with
  | .error a, .error b =>
    if h : a = b then .isTrue (by rw [h]) else .isFalse (by simp [h])
  | .error _, .ok _ => .isFalse (by simp)
  | .ok _, .error _ => .isFalse (by simp)
  | .ok a, .ok b =>
    if h : a = b then .isTrue (by rw [h]) else .isFalse (by simp [h])

/-- Whitespace test used by the trimming model (JS `trim` family). -/
def isWS (c : Char) : Bool := c.isWhitespace

/-- Model of JavaScript `String.prototype.trimStart`. -/
def trimStart (l : List Char) : List Char := l.dropWhile isWS

/-- Model of JavaScript `String.prototype.trimEnd`. -/
def trimEnd (l : List Char) : List Char := (l.reverse.dropWhile isWS).reverse

/-- Model of JavaScript `String.prototype.trim`. -/
def trim (l : List Char) : List Char := trimEnd (trimStart l)

/-- `leadsWith p l` models `l.startsWith(p)` on strings-as-char-lists. -/
def leadsWith : List Char → List Char → Bool
  | [], _ => true
  | _ :: _, [] => false
  | p :: ps, c :: cs => p == c && leadsWith ps cs

/-- Model of `content.split(/\r?\n/)`: each separator is a `\n`, together with
a `\r` immediately preceding it when there is one. -/
def splitLines : List Char → List (List Char)
  | [] => [[]]
  | '\r' :: '\n' :: rest => [] :: splitLines rest
  | '\n' :: rest => [] :: splitLines rest
  | c :: rest =>
    match splitLines rest with
    | [] => [[c]]
    | line :: more => (c :: line) :: more

/-- The data interpolated into the malformed-line error message
`Malformed env line <lineNumber>: "<raw>". Expected KEY=value or export
KEY=value.` thrown by `parseEnvLine`. -/
structure MalformedLine where
  lineNumber : Nat
  raw : List Char
  deriving DecidableEq, Repr

/-- The token `"export "` stripped by the parser. -/
def exportTok : List Char := ['e', 'x', 'p', 'o', 'r', 't', ' ']

/-- The candidate text examined for a `=` separator: the trimmed line with an
optional leading `export ` token removed and the remainder trim-started
(body of `parseEnvLine` in `src/cli/helpers.ts`). -/
def candidateOf (line : List Char) : List Char :=
  let trimmed := trim line
  if leadsWith exportTok trimmed then trimStart (trimmed.drop 7) else trimmed

/-- Model of `parseEnvLine`: `ok none` for ignored lines (blank or `#`
comment), `ok (some (key, value))` for a parsed assignment, `error` for a
malformed line (no `=` in the candidate, or `=` first, or an empty key). -/
def parseEnvLine (line : List Char) (lineNumber : Nat) :
    Except MalformedLine (Option (List Char × List Char)) :=
  let trimmed := trim line
  if trimmed = [] then .ok none
  else if leadsWith ['#'] trimmed then .ok none
  else
    let candidate := candidateOf line
    match candidate.findIdx? (fun c => c = '=') with
    | none => .error ⟨lineNumber, line⟩
    | some i =>
      if i = 0 then .error ⟨lineNumber, line⟩
      else
        let key := trim (candidate.take i)
        let value := trim (candidate.drop (i + 1))
        if key = [] then .error ⟨lineNumber, line⟩
        else .ok (some (key, value))

/-- One parsed assignment (`EnvSecretEntry` in `src/cli/helpers.ts`). -/
structure EnvSecretEntry where
  key : List Char
  value : List Char
  line : Nat
  deriving DecidableEq, Repr

/-- One skipped line record of `ParsedEnvSecrets.skipped`. -/
structure SkippedEntry where
  key : List Char
  line : Nat
  reason : List Char
  deriving DecidableEq, Repr

/-- Result record of `parseEnvSecrets`. -/
structure ParsedEnvSecrets where
  entries : List EnvSecretEntry
  skipped : List SkippedEntry
  deriving DecidableEq, Repr

/-- The skip reason `"duplicate key"`. -/
def dupReason : List Char := "duplicate key".toList

/-- The loop of `parseEnvSecrets`: processes `lines` in order, numbering them
from `n`, with `seen` the set of keys already emitted. -/
def parseLines : List (List Char) → Nat → List (List Char) →
    Except MalformedLine ParsedEnvSecrets
  | [], _, _ => .ok ⟨[], []⟩
  | l :: rest, n, seen =>
    match parseEnvLine l n with
    | .error e => .error e
    | .ok none => parseLines rest (n + 1) seen
    | .ok (some (k, v)) =>
      if k ∈ seen then
        match parseLines rest (n + 1) seen with
        | .error e => .error e
        | .ok r => .ok ⟨r.entries, ⟨k, n, dupReason⟩ :: r.skipped⟩
      else
        match parseLines rest (n + 1) (k :: seen) with
        | .error e => .error e
        | .ok r => .ok ⟨⟨k, v, n⟩ :: r.entries, r.skipped⟩

/-- Model of `parseEnvSecrets` (`src/cli/helpers.ts`). -/
def parseEnvSecrets (content : List Char) :
    Except MalformedLine ParsedEnvSecrets :=
  parseLines (splitLines content) 1 []

example :
    parseEnvSecrets "export API_KEY=secret1\nDATABASE_URL=postgres://db".toList
      = .ok ⟨[⟨"API_KEY".toList, "secret1".toList, 1⟩,
             ⟨"DATABASE_URL".toList, "postgres://db".toList, 2⟩], []⟩ := by
  decide

example :
    parseEnvSecrets "A=1\nA=2".toList
      = .ok ⟨[⟨"A".toList, "1".toList, 1⟩],
             [⟨"A".toList, 2, dupReason⟩]⟩ := by
  decide

example :
    parseEnvSecrets "NOT_A_VALID_LINE".toList
      = .error ⟨1, "NOT_A_VALID_LINE".toList⟩ := by
  decide

example :
    parseEnvSecrets "  export   NAME =  secret1  ".toList
      = .ok ⟨[⟨"NAME".toList, "secret1".toList, 1⟩], []⟩ := by
  decide

lemma parseLines_cons (l : List Char) (rest : List (List Char)) (n : Nat)
    (seen : List (List Char)) :
    parseLines (l :: rest) n seen =
      match parseEnvLine l n with
      | .error e => .error e
      | .ok none => parseLines rest (n + 1) seen
      | .ok (some (k, v)) =>
        if k ∈ seen then
          match parseLines rest (n + 1) seen with
          | .error e => .error e
          | .ok r => .ok ⟨r.entries, ⟨k, n, dupReason⟩ :: r.skipped⟩
        else
          match parseLines rest (n + 1) (k :: seen) with
          | .error e => .error e
          | .ok r => .ok ⟨⟨k, v, n⟩ :: r.entries, r.skipped⟩ := rfl

lemma parseLines_entries_key_not_seen :
    ∀ (lines : List (List Char)) (n : Nat) (seen : List (List Char))
      (r : ParsedEnvSecrets), parseLines lines n seen = .ok r →
      ∀ e ∈ r.entries, e.key ∉ seen := by
  intro lines
  induction lines with
  | nil =>
    intro n seen r h e he
    simp only [parseLines] at h
    cases h
    simp at he
  | cons l rest ih =>
    intro n seen r h e he
    rw [parseLines_cons] at h
    rcases hp : parseEnvLine l n with err | o
    · rw [hp] at h; cases h
    · rw [hp] at h
      rcases o with _ | ⟨k, v⟩
      · exact ih (n + 1) seen r h e he
      · by_cases hk : k ∈ seen
        · simp only [if_pos hk] at h
          rcases hr : parseLines rest (n + 1) seen with err | r'
          · rw [hr] at h; cases h
          · rw [hr] at h
            cases h
            exact ih (n + 1) seen r' hr e he
        · simp only [if_neg hk] at h
          rcases hr : parseLines rest (n + 1) (k :: seen) with err | r'
          · rw [hr] at h; cases h
          · rw [hr] at h
            cases h
            simp only [List.mem_cons] at he
            rcases he with he | he
            · subst he; exact hk
            · intro hmem
              exact ih (n + 1) (k :: seen) r' hr e he (List.mem_cons_of_mem _ hmem)

lemma parseLines_keys_nodup :
    ∀ (lines : List (List Char)) (n : Nat) (seen : List (List Char))
      (r : ParsedEnvSecrets), parseLines lines n seen = .ok r →
      (r.entries.map fun e => e.key).Nodup := by
  intro lines
  induction lines with
  | nil =>
    intro n seen r h
    simp only [parseLines] at h
    cases h
    simp
  | cons l rest ih =>
    intro n seen r h
    rw [parseLines_cons] at h
    rcases hp : parseEnvLine l n with err | o
    · rw [hp] at h; cases h
    · rw [hp] at h
      rcases o with _ | ⟨k, v⟩
      · exact ih (n + 1) seen r h
      · by_cases hk : k ∈ seen
        · simp only [if_pos hk] at h
          rcases hr : parseLines rest (n + 1) seen with err | r'
          · rw [hr] at h; cases h
          · rw [hr] at h; cases h
            exact ih (n + 1) seen r' hr
        · simp only [if_neg hk] at h
          rcases hr : parseLines rest (n + 1) (k :: seen) with err | r'
          · rw [hr] at h; cases h
          · rw [hr] at h; cases h
            simp only [List.map_cons, List.nodup_cons]
            refine ⟨?_, ih (n + 1) (k :: seen) r' hr⟩
            intro hmem
            rcases List.mem_map.mp hmem with ⟨e, he, hek⟩
            have := parseLines_entries_key_not_seen rest (n + 1) (k :: seen) r' hr e he
            exact this (by rw [hek]; exact List.mem_cons_self _ _)

lemma parseLines_line_bounds :
    ∀ (lines : List (List Char)) (n : Nat) (seen : List (List Char))
      (r : ParsedEnvSecrets), parseLines lines n seen = .ok r →
      (∀ e ∈ r.entries, n ≤ e.line) ∧ (∀ s ∈ r.skipped, n ≤ s.line) := by
  intro lines
  induction lines with
  | nil =>
    intro n seen r h
    simp only [parseLines] at h
    cases h
    constructor <;> intro x hx <;> simp at hx
  | cons l rest ih =>
    intro n seen r h
    rw [parseLines_cons] at h
    rcases hp : parseEnvLine l n with err | o
    · rw [hp] at h; cases h
    · rw [hp] at h
      rcases o with _ | ⟨k, v⟩
      · rcases ih (n + 1) seen r h with ⟨h1, h2⟩
        exact ⟨fun e he => le_trans (Nat.le_succ n) (h1 e he),
               fun s hs => le_trans (Nat.le_succ n) (h2 s hs)⟩
      · by_cases hk : k ∈ seen
        · simp only [if_pos hk] at h
          rcases hr : parseLines rest (n + 1) seen with err | r'
          · rw [hr] at h; cases h
          · rw [hr] at h; cases h
            rcases ih (n + 1) seen r' hr with ⟨h1, h2⟩
            refine ⟨fun e he => le_trans (Nat.le_succ n) (h1 e he), ?_⟩
            intro s hs
            simp only [List.mem_cons] at hs
            rcases hs with hs | hs
            · subst hs; exact le_refl n
            · exact le_trans (Nat.le_succ n) (h2 s hs)
        · simp only [if_neg hk] at h
          rcases hr : parseLines rest (n + 1) (k :: seen) with err | r'
          · rw [hr] at h; cases h
          · rw [hr] at h; cases h
            rcases ih (n + 1) (k :: seen) r' hr with ⟨h1, h2⟩
            refine ⟨?_, fun s hs => le_trans (Nat.le_succ n) (h2 s hs)⟩
            intro e he
            simp only [List.mem_cons] at he
            rcases he with he | he
            · subst he; exact le_refl n
            · exact le_trans (Nat.le_succ n) (h1 e he)

lemma parseLines_lines_sorted :
    ∀ (lines : List (List Char)) (n : Nat) (seen : List (List Char))
      (r : ParsedEnvSecrets), parseLines lines n seen = .ok r →
      (r.entries.map fun e => e.line).Pairwise (· < ·) := by
  intro lines
  induction lines with
  | nil =>
    intro n seen r h
    simp only [parseLines] at h
    cases h
    simp
  | cons l rest ih =>
    intro n seen r h
    rw [parseLines_cons] at h
    rcases hp : parseEnvLine l n with err | o
    · rw [hp] at h; cases h
    · rw [hp] at h
      rcases o with _ | ⟨k, v⟩
      · exact ih (n + 1) seen r h
      · by_cases hk : k ∈ seen
        · simp only [if_pos hk] at h
          rcases hr : parseLines rest (n + 1) seen with err | r'
          · rw [hr] at h; cases h
          · rw [hr] at h; cases h
            exact ih (n + 1) seen r' hr
        · simp only [if_neg hk] at h
          rcases hr : parseLines rest (n + 1) (k :: seen) with err | r'
          · rw [hr] at h; cases h
          · rw [hr] at h; cases h
            simp only [List.map_cons, List.pairwise_cons]
            refine ⟨?_, ih (n + 1) (k :: seen) r' hr⟩
            intro m hm
            rcases List.mem_map.mp hm with ⟨e, he, hel⟩
            have := (parseLines_line_bounds rest (n + 1) (k :: seen) r' hr).1 e he
            omega

lemma parseLines_entry_source :
    ∀ (lines : List (List Char)) (n : Nat) (seen : List (List Char))
      (r : ParsedEnvSecrets), parseLines lines n seen = .ok r →
      ∀ e ∈ r.entries, ∃ l', lines[e.line - n]? = some l' ∧
        parseEnvLine l' e.line = .ok (some (e.key, e.value)) := by
  intro lines
  induction lines with
  | nil =>
    intro n seen r h e he
    simp only [parseLines] at h
    cases h
    simp at he
  | cons l rest ih =>
    intro n seen r h e he
    rw [parseLines_cons] at h
    rcases hp : parseEnvLine l n with err | o
    · rw [hp] at h; cases h
    · rw [hp] at h
      rcases o with _ | ⟨k, v⟩
      · rcases ih (n + 1) seen r h e he with ⟨l', hl', hpl⟩
        have hb := (parseLines_line_bounds rest (n + 1) seen r h).1 e he
        have hidx : e.line - n = (e.line - (n + 1)) + 1 := by omega
        exact ⟨l', by rw [hidx, List.getElem?_cons_succ]; exact hl', hpl⟩
      · by_cases hk : k ∈ seen
        · simp only [if_pos hk] at h
          rcases hr : parseLines rest (n + 1) seen with err | r'
          · rw [hr] at h; cases h
          · rw [hr] at h; cases h
            rcases ih (n + 1) seen r' hr e he with ⟨l', hl', hpl⟩
            have hb := (parseLines_line_bounds rest (n + 1) seen r' hr).1 e he
            have hidx : e.line - n = (e.line - (n + 1)) + 1 := by omega
            exact ⟨l', by rw [hidx, List.getElem?_cons_succ]; exact hl', hpl⟩
        · simp only [if_neg hk] at h
          rcases hr : parseLines rest (n + 1) (k :: seen) with err | r'
          · rw [hr] at h; cases h
          · rw [hr] at h; cases h
            simp only [List.mem_cons] at he
            rcases he with he | he
            · subst he
              refine ⟨l, ?_, hp⟩
              simp
            · rcases ih (n + 1) (k :: seen) r' hr e he with ⟨l', hl', hpl⟩
              have hb := (parseLines_line_bounds rest (n + 1) (k :: seen) r' hr).1 e he
              have hidx : e.line - n = (e.line - (n + 1)) + 1 := by omega
              exact ⟨l', by rw [hidx, List.getElem?_cons_succ]; exact hl', hpl⟩

lemma parseLines_skipped_spec :
    ∀ (lines : List (List Char)) (n : Nat) (seen : List (List Char))
      (r : ParsedEnvSecrets), parseLines lines n seen = .ok r →
      ∀ s ∈ r.skipped, s.reason = dupReason ∧
        (∃ l', lines[s.line - n]? = some l' ∧
          ∃ v', parseEnvLine l' s.line = .ok (some (s.key, v'))) ∧
        (s.key ∈ seen ∨ ∃ e ∈ r.entries, e.key = s.key ∧ e.line < s.line) := by
  intro lines
  induction lines with
  | nil =>
    intro n seen r h s hs
    simp only [parseLines] at h
    cases h
    simp at hs
  | cons l rest ih =>
    intro n seen r h s hs
    rw [parseLines_cons] at h
    rcases hp : parseEnvLine l n with err | o
    · rw [hp] at h; cases h
    · rw [hp] at h
      rcases o with _ | ⟨k, v⟩
      · rcases ih (n + 1) seen r h s hs with ⟨h1, ⟨l', hl', hv⟩, h3⟩
        have hb := (parseLines_line_bounds rest (n + 1) seen r h).2 s hs
        have hidx : s.line - n = (s.line - (n + 1)) + 1 := by omega
        exact ⟨h1, ⟨l', by rw [hidx, List.getElem?_cons_succ]; exact hl', hv⟩, h3⟩
      · by_cases hk : k ∈ seen
        · simp only [if_pos hk] at h
          rcases hr : parseLines rest (n + 1) seen with err | r'
          · rw [hr] at h; cases h
          · rw [hr] at h; cases h
            simp only [List.mem_cons] at hs
            rcases hs with hs | hs
            · subst hs
              refine ⟨rfl, ⟨l, ?_, v, hp⟩, Or.inl hk⟩
              simp
            · rcases ih (n + 1) seen r' hr s hs with ⟨h1, ⟨l', hl', hv⟩, h3⟩
              have hb := (parseLines_line_bounds rest (n + 1) seen r' hr).2 s hs
              have hidx : s.line - n = (s.line - (n + 1)) + 1 := by omega
              exact ⟨h1, ⟨l', by rw [hidx, List.getElem?_cons_succ]; exact hl', hv⟩, h3⟩
        · simp only [if_neg hk] at h
          rcases hr : parseLines rest (n + 1) (k :: seen) with err | r'
          · rw [hr] at h; cases h
          · rw [hr] at h; cases h
            rcases ih (n + 1) (k :: seen) r' hr s hs with ⟨h1, ⟨l', hl', hv⟩, h3⟩
            have hb := (parseLines_line_bounds rest (n + 1) (k :: seen) r' hr).2 s hs
            have hidx : s.line - n = (s.line - (n + 1)) + 1 := by omega
            refine ⟨h1, ⟨l', by rw [hidx, List.getElem?_cons_succ]; exact hl', hv⟩, ?_⟩
            rcases h3 with h3 | ⟨e, he, hek, helt⟩
            · rcases List.mem_cons.mp h3 with h3 | h3
              · exact Or.inr ⟨⟨k, v, n⟩, List.mem_cons_self _ _, by simp [h3.symm], by simpa using hb⟩
              · exact Or.inl h3
            · exact Or.inr ⟨e, List.mem_cons_of_mem _ he, hek, helt⟩

lemma parseLines_complete :
    ∀ (lines : List (List Char)) (n : Nat) (seen : List (List Char))
      (r : ParsedEnvSecrets), parseLines lines n seen = .ok r →
      ∀ (j : Nat) (l' : List Char), lines[j]? = some l' →
        ∀ (k v : List Char), parseEnvLine l' (n + j) = .ok (some (k, v)) →
          (∃ e ∈ r.entries, e.line = n + j ∧ e.key = k ∧ e.value = v) ∨
          (∃ s ∈ r.skipped, s.line = n + j ∧ s.key = k) := by
  intro lines
  induction lines with
  | nil =>
    intro n seen r h j l' hj
    simp at hj
  | cons l rest ih =>
    intro n seen r h j l' hj k v hkv
    rw [parseLines_cons] at h
    rcases hp : parseEnvLine l n with err | o
    · rw [hp] at h; cases h
    · rw [hp] at h
      rcases j with _ | j'
      · -- the line in question is `l` itself
        simp only [List.getElem?_cons_zero, Option.some.injEq] at hj
        subst hj
        rw [Nat.add_zero] at hkv
        rcases o with _ | ⟨k', v'⟩
        · rw [hp] at hkv; simp at hkv
        · obtain ⟨hk1, hv1⟩ : k' = k ∧ v' = v := by
            simpa using hp.symm.trans hkv
          rw [← hk1, ← hv1]
          by_cases hk : k' ∈ seen
          · simp only [if_pos hk] at h
            rcases hr : parseLines rest (n + 1) seen with err | r'
            · rw [hr] at h; cases h
            · rw [hr] at h; cases h
              exact Or.inr ⟨⟨k', n, dupReason⟩, List.mem_cons_self _ _, by simp⟩
          · simp only [if_neg hk] at h
            rcases hr : parseLines rest (n + 1) (k' :: seen) with err | r'
            · rw [hr] at h; cases h
            · rw [hr] at h; cases h
              exact Or.inl ⟨⟨k', v', n⟩, List.mem_cons_self _ _, by simp⟩
      · -- the line in question is inside `rest`
        simp only [List.getElem?_cons_succ] at hj
        have hn : n + (j' + 1) = (n + 1) + j' := by omega
        rw [hn] at hkv
        rcases o with _ | ⟨k0, v0⟩
        · rcases ih (n + 1) seen r h j' l' hj k v hkv with
            ⟨e, he, hel, hek, hev⟩ | ⟨s, hs, hsl, hsk⟩
          · exact Or.inl ⟨e, he, by omega, hek, hev⟩
          · exact Or.inr ⟨s, hs, by omega, hsk⟩
        · by_cases hk : k0 ∈ seen
          · simp only [if_pos hk] at h
            rcases hr : parseLines rest (n + 1) seen with err | r'
            · rw [hr] at h; cases h
            · rw [hr] at h; cases h
              rcases ih (n + 1) seen r' hr j' l' hj k v hkv with
                ⟨e, he, hel, hek, hev⟩ | ⟨s, hs, hsl, hsk⟩
              · exact Or.inl ⟨e, he, by omega, hek, hev⟩
              · exact Or.inr ⟨s, List.mem_cons_of_mem _ hs, by omega, hsk⟩
          · simp only [if_neg hk] at h
            rcases hr : parseLines rest (n + 1) (k0 :: seen) with err | r'
            · rw [hr] at h; cases h
            · rw [hr] at h; cases h
              rcases ih (n + 1) (k0 :: seen) r' hr j' l' hj k v hkv with
                ⟨e, he, hel, hek, hev⟩ | ⟨s, hs, hsl, hsk⟩
              · exact Or.inl ⟨e, List.mem_cons_of_mem _ he, by omega, hek, hev⟩
              · exact Or.inr ⟨s, hs, by omega, hsk⟩

/-- C1: whenever `parseEnvSecrets` returns a result, its entries have
pairwise-distinct keys, appear in input line order, and each entry's `line`
field is the 1-based number of the source line it was parsed from; every
skipped record has reason `"duplicate key"`, stems from a parseable line whose
key was already emitted by an earlier entry, and every parseable line is
accounted for either by an entry or by a skipped record. -/
theorem parseEnvSecrets_entries_spec (content : List Char)
    (r : ParsedEnvSecrets) (h : parseEnvSecrets content = .ok r) :
    (r.entries.map fun e => e.key).Nodup ∧
    (r.entries.map fun e => e.line).Pairwise (· < ·) ∧
    (∀ e ∈ r.entries, 1 ≤ e.line ∧ ∃ l',
        (splitLines content)[e.line - 1]? = some l' ∧
        parseEnvLine l' e.line = .ok (some (e.key, e.value))) ∧
    (∀ s ∈ r.skipped, s.reason = dupReason ∧
        (∃ l', (splitLines content)[s.line - 1]? = some l' ∧
          ∃ v', parseEnvLine l' s.line = .ok (some (s.key, v'))) ∧
        ∃ e ∈ r.entries, e.key = s.key ∧ e.line < s.line) ∧
    (∀ (j : Nat) (l' : List Char), (splitLines content)[j]? = some l' →
        ∀ (k v : List Char), parseEnvLine l' (j + 1) = .ok (some (k, v)) →
          (∃ e ∈ r.entries, e.line = j + 1 ∧ e.key = k ∧ e.value = v) ∨
          (∃ s ∈ r.skipped, s.line = j + 1 ∧ s.key = k)) := by
  rw [parseEnvSecrets] at h
  refine ⟨parseLines_keys_nodup _ 1 [] r h,
          parseLines_lines_sorted _ 1 [] r h, ?_, ?_, ?_⟩
  · intro e he
    exact ⟨(parseLines_line_bounds _ 1 [] r h).1 e he,
           parseLines_entry_source _ 1 [] r h e he⟩
  · intro s hs
    rcases parseLines_skipped_spec _ 1 [] r h s hs with ⟨h1, h2, h3⟩
    refine ⟨h1, h2, ?_⟩
    rcases h3 with h3 | h3
    · simp at h3
    · exact h3
  · intro j l' hj k v hkv
    have hkv' : parseEnvLine l' (1 + j) = .ok (some (k, v)) := by
      rwa [Nat.add_comm]
    rw [Nat.add_comm j 1]
    exact Nat.add_comm 1 j ▸ parseLines_complete _ 1 [] r h j l' hj k v hkv'

/-- Witness for C1 at the concrete input `"A=1\nA=2"`. -/
theorem parseEnvSecrets_entries_spec_witness :
    ((ParsedEnvSecrets.mk [⟨"A".toList, "1".toList, 1⟩]
        [⟨"A".toList, 2, dupReason⟩]).entries.map fun e => e.key).Nodup :=
  (parseEnvSecrets_entries_spec "A=1\nA=2".toList
    ⟨[⟨"A".toList, "1".toList, 1⟩], [⟨"A".toList, 2, dupReason⟩]⟩
    (by decide)).1

lemma dropWhile_head_false {p : Char → Bool} :
    ∀ (l : List Char) (c : Char) (rest : List Char),
      l.dropWhile p = c :: rest → p c = false := by
  intro l
  induction l with
  | nil => intro c rest h; simp at h
  | cons a t ih =>
    intro c rest h
    rw [List.dropWhile_cons] at h
    by_cases ha : p a
    · rw [if_pos ha] at h
      exact ih c rest h
    · rw [if_neg ha] at h
      cases h
      simpa using ha

lemma trimEnd_append (l : List Char) :
    l = trimEnd l ++ (l.reverse.takeWhile isWS).reverse := by
  have h := List.takeWhile_append_dropWhile (p := isWS) (l := l.reverse)
  calc l = l.reverse.reverse := l.reverse_reverse.symm
    _ = (l.reverse.takeWhile isWS ++ l.reverse.dropWhile isWS).reverse := by
        rw [h]
    _ = (l.reverse.dropWhile isWS).reverse ++
        (l.reverse.takeWhile isWS).reverse := by rw [List.reverse_append]
    _ = trimEnd l ++ (l.reverse.takeWhile isWS).reverse := rfl

lemma trimEnd_head_false (l : List Char) (c : Char) (rest : List Char)
    (h : trimEnd l = c :: rest) : ∃ t, l = c :: t := by
  have := trimEnd_append l
  rw [h] at this
  exact ⟨rest ++ (l.reverse.takeWhile isWS).reverse, by simpa using this⟩

lemma trim_head_not_ws (l : List Char) (c : Char) (rest : List Char)
    (h : trim l = c :: rest) : isWS c = false := by
  rcases trimEnd_head_false (trimStart l) c rest h with ⟨t, ht⟩
  exact dropWhile_head_false l c t ht

lemma candidateOf_head_not_ws (line : List Char) (c : Char) (rest : List Char)
    (h : candidateOf line = c :: rest) : isWS c = false := by
  rw [candidateOf] at h
  by_cases he : leadsWith exportTok (trim line)
  · simp only [he, if_true] at h
    exact dropWhile_head_false _ c rest h
  · simp only [he, if_false] at h
    exact trim_head_not_ws line c rest h

lemma trimEnd_ne_nil (c : Char) (xs : List Char) (hc : isWS c = false) :
    trimEnd (c :: xs) ≠ [] := by
  intro h
  rw [trimEnd, List.reverse_eq_nil_iff, List.dropWhile_eq_nil_iff] at h
  have := h c (by simp)
  rw [hc] at this
  cases this

lemma trim_cons_ne_nil (c : Char) (xs : List Char) (hc : isWS c = false) :
    trim (c :: xs) ≠ [] := by
  rw [trim, trimStart, List.dropWhile_cons, hc]
  simp only [Bool.false_eq_true, if_false]
  exact trimEnd_ne_nil c xs hc

/-- Core of C10: when the separator sits at a positive index of the
candidate, the trimmed key slice is non-empty. -/
lemma key_slice_ne_nil (line : List Char) (i : Nat)
    (hi : (candidateOf line).findIdx? (fun c => c = '=') = some i)
    (hpos : 0 < i) : trim ((candidateOf line).take i) ≠ [] := by
  rcases hc : candidateOf line with _ | ⟨c, rest⟩
  · rw [hc] at hi; simp at hi
  · have hcws := candidateOf_head_not_ws line c rest hc
    rcases i with _ | j
    · omega
    · rw [List.take_succ_cons]
      exact trim_cons_ne_nil c (rest.take j) hcws

lemma parseEnvLine_error_iff (line : List Char) (n : Nat) :
    (∃ e, parseEnvLine line n = .error e) ↔
      trim line ≠ [] ∧ leadsWith ['#'] (trim line) = false ∧
      ((candidateOf line).findIdx? (fun c => c = '=') = none ∨
       (candidateOf line).findIdx? (fun c => c = '=') = some 0) := by
  by_cases h1 : trim line = []
  · simp [parseEnvLine, h1]
  · by_cases h2 : leadsWith ['#'] (trim line)
    · simp [parseEnvLine, h1, h2]
    · rcases hf : (candidateOf line).findIdx? (fun c => c = '=') with _ | i
      · simp [parseEnvLine, h1, h2, hf]
      · rcases i with _ | j
        · simp [parseEnvLine, h1, h2, hf]
        · have hkey := key_slice_ne_nil line (j + 1) hf (Nat.succ_pos j)
          simp [parseEnvLine, h1, h2, hf, hkey]

/-- C10: in `parseEnvLine`, whenever the candidate (the trimmed,
`export `-stripped line) has its first `=` at a positive index, the trimmed
key slice before it is non-empty — so the empty-key throw is unreachable and
a non-blank non-comment line is malformed exactly when the candidate has no
`=` or has it at index 0. -/
theorem parseEnvLine_empty_key_unreachable (line : List Char) (n : Nat) :
    (∀ i, (candidateOf line).findIdx? (fun c => c = '=') = some i → 0 < i →
        trim ((candidateOf line).take i) ≠ []) ∧
    ((∃ e, parseEnvLine line n = .error e) ↔
      trim line ≠ [] ∧ leadsWith ['#'] (trim line) = false ∧
      ((candidateOf line).findIdx? (fun c => c = '=') = none ∨
       (candidateOf line).findIdx? (fun c => c = '=') = some 0)) :=
  ⟨fun i hi hpos => key_slice_ne_nil line i hi hpos,
   parseEnvLine_error_iff line n⟩

/-- Witness for C10 at the concrete line `"A=1"`. -/
theorem parseEnvLine_empty_key_unreachable_witness :
    trim ((candidateOf "A=1".toList).take 1) ≠ [] :=
  (parseEnvLine_empty_key_unreachable "A=1".toList 1).1 1 (by decide) (by decide)

/-- C4: a line that is non-blank and not a comment after trimming, and whose
candidate has no `=` or an empty key slice before its first `=`, makes
`parseEnvLine` fail with the malformed-line error carrying the 1-based line
number and the raw line; in particular `parseEnvSecrets "NOT_A_VALID_LINE"`
fails with the error for line 1. -/
theorem parseEnvLine_malformed_spec :
    (∀ (line : List Char) (n : Nat), trim line ≠ [] →
      leadsWith ['#'] (trim line) = false →
      ((candidateOf line).findIdx? (fun c => c = '=') = none ∨
        ∃ i, (candidateOf line).findIdx? (fun c => c = '=') = some i ∧
          trim ((candidateOf line).take i) = []) →
      parseEnvLine line n = .error ⟨n, line⟩) ∧
    parseEnvSecrets "NOT_A_VALID_LINE".toList =
      .error ⟨1, "NOT_A_VALID_LINE".toList⟩ := by
  constructor
  · intro line n h1 h2 h3
    rcases h3 with h3 | ⟨i, hi, hkey⟩
    · simp [parseEnvLine, h1, h2, h3]
    · rcases i with _ | j
      · simp [parseEnvLine, h1, h2, hi]
      · exact absurd hkey (key_slice_ne_nil line (j + 1) hi (Nat.succ_pos j))
  · decide

/-- Witness for C4 at the concrete line `"=x"` (empty key). -/
theorem parseEnvLine_malformed_spec_witness :
    parseEnvLine "=x".toList 3 = .error ⟨3, "=x".toList⟩ :=
  parseEnvLine_malformed_spec.1 "=x".toList 3 (by decide) (by decide)
    (Or.inr ⟨0, by decide, by decide⟩)

/-- JS truthiness of a `string | undefined` value (`Boolean(x)`). -/
def truthy : Option String → Bool
  | none => false
  | some s => !s.isEmpty

/-- Model of `content.replace(/\r?\n$/, '')`: strip one trailing `\n` or
`\r\n`. -/
def stripTrailingNewline (s : String) : String :=
  match s.toList.reverse with
  | '\n' :: '\r' :: rest => ⟨rest.reverse⟩
  | '\n' :: rest => ⟨rest.reverse⟩
  | _ => s

/-- The ambient input channels read by `resolveSecretValue`: whether standard
input is a TTY, the piped standard-input bytes, and file contents by path
(file reads modelled as total). -/
structure IOEnv where
  stdinIsTTY : Bool
  stdinContent : String
  fileContent : String → String

/-- Model of `resolveSecretValue` (`src/cli/helpers.ts`): counts the truthy
value sources, rejects more than one, then consults stdin, file, and the
inline value in that order. -/
def resolveSecretValue (env : IOEnv) (value : Option String)
    (valueStdin : Bool) (valueFile : Option String) :
    Except String (Option String) :=
  let providedSources :=
    (if truthy value then 1 else 0) + (if valueStdin then 1 else 0) +
      (if truthy valueFile then 1 else 0)
  if providedSources > 1 then
    .error "Use only one secret value source: --value, --value-stdin, or --file."
  else if valueStdin then
    if env.stdinIsTTY then
      .error "No stdin detected. Pipe a value when using --value-stdin."
    else .ok (some (stripTrailingNewline env.stdinContent))
  else
    match valueFile with
    | some f =>
      if f.isEmpty then .ok value
      else .ok (some (stripTrailingNewline (env.fileContent f)))
    | none => .ok value

/-- C3: with more than one truthy source `resolveSecretValue` rejects with
the use-only-one message; with no truthy source it resolves to the inline
value (possibly `undefined`). -/
theorem resolveSecretValue_exclusive (env : IOEnv) (value : Option String)
    (valueStdin : Bool) (valueFile : Option String) :
    ((if truthy value then 1 else 0) + (if valueStdin then 1 else 0) +
        (if truthy valueFile then 1 else 0) > 1 →
      resolveSecretValue env value valueStdin valueFile =
        .error
          "Use only one secret value source: --value, --value-stdin, or --file.") ∧
    ((if truthy value then 1 else 0) + (if valueStdin then 1 else 0) +
        (if truthy valueFile then 1 else 0) = 0 →
      resolveSecretValue env value valueStdin valueFile = .ok value) := by
  constructor
  · intro h
    rw [resolveSecretValue.eq_def]
    simp only [if_pos h]
  · intro h
    have hv : truthy value = false := by
      by_cases hb : truthy value
      · rw [if_pos hb] at h; omega
      · simpa using hb
    have hs : valueStdin = false := by
      by_cases hb : valueStdin
      · rw [if_pos hb] at h; omega
      · simpa using hb
    have hft : truthy valueFile = false := by
      by_cases hb : truthy valueFile
      · rw [if_pos hb] at h; omega
      · simpa using hb
    rcases valueFile with _ | f
    · rw [resolveSecretValue.eq_def]
      simp [hv, hs, hft]
    · have hfe : f.isEmpty = true := by
        rw [truthy] at hft
        simpa using hft
      rw [resolveSecretValue.eq_def]
      simp [hv, hs, hft, hfe]

/-- Witness for C3: two sources rejects; zero sources yields the inline
value. -/
theorem resolveSecretValue_exclusive_witness :
    resolveSecretValue ⟨true, "", fun _ => ""⟩ (some "a") true none =
      .error
        "Use only one secret value source: --value, --value-stdin, or --file." ∧
    resolveSecretValue ⟨true, "", fun _ => ""⟩ none false none = .ok none :=
  ⟨(resolveSecretValue_exclusive ⟨true, "", fun _ => ""⟩ (some "a") true
      none).1 (by decide),
   (resolveSecretValue_exclusive ⟨true, "", fun _ => ""⟩ none false
      none).2 (by decide)⟩

/-- A raw value in a commander global-options record
(`optsWithGlobals(): Record<string, unknown>`): a string, or any
non-string value. -/
inductive JSVal where
  | str : String → JSVal
  | nonstr : JSVal
  deriving DecidableEq, Repr

/-- Local AWS scope options of a command (`AwsScopeOptions`). -/
structure AwsScopeOptions where
  profile : Option String
  region : Option String
  deriving DecidableEq, Repr

/-- Global (top-level) options as seen through `optsWithGlobals()`; an absent
command or method behaves as the record with both fields absent. -/
structure RawGlobalOpts where
  profile : Option JSVal
  region : Option JSVal
  deriving DecidableEq, Repr

/-- The `typeof x === 'string' ? x : undefined` projection. -/
def asString? : Option JSVal → Option String
  | some (.str s) => some s
  | _ => none

/-- JS `a || b` for `a b : string | undefined`. -/
def orTruthy (a b : Option String) : Option String :=
  match a with
  | some s => if s.isEmpty then b else some s
  | none => b

/-- Model of `resolveAwsScope` (`src/cli/helpers.ts`). -/
def resolveAwsScope (options : AwsScopeOptions) (globals : RawGlobalOpts) :
    AwsScopeOptions :=
  { profile := orTruthy options.profile (asString? globals.profile),
    region := orTruthy options.region (asString? globals.region) }

/-- Counterexample to C5 as stated: a present-but-empty local profile does
not win — the code's truthiness test lets the global value through. -/
theorem resolveAwsScope_counterexample :
    resolveAwsScope ⟨some "", none⟩ ⟨some (.str "b"), none⟩ ≠
      ⟨some "", none⟩ ∧
    resolveAwsScope ⟨some "", none⟩ ⟨some (.str "b"), none⟩ =
      ⟨some "b", none⟩ := by
  constructor
  · decide
  · decide

/-- C5 (amended): each field of `resolveAwsScope` independently equals the
local value when it is present and non-empty, else the global value when
that is a string, else `undefined`; in particular the claim's concrete
example holds. -/
theorem resolveAwsScope_amended (options : AwsScopeOptions)
    (globals : RawGlobalOpts) :
    (∀ s, options.profile = some s → s ≠ "" →
      (resolveAwsScope options globals).profile = some s) ∧
    ((options.profile = none ∨ options.profile = some "") →
      (resolveAwsScope options globals).profile = asString? globals.profile) ∧
    (∀ s, options.region = some s → s ≠ "" →
      (resolveAwsScope options globals).region = some s) ∧
    ((options.region = none ∨ options.region = some "") →
      (resolveAwsScope options globals).region = asString? globals.region) ∧
    resolveAwsScope ⟨some "a", none⟩ ⟨some (.str "b"), some (.str "c")⟩ =
      ⟨some "a", some "c"⟩ := by
  have hemp : "".isEmpty = true := by decide
  refine ⟨?_, ?_, ?_, ?_, by decide⟩
  · intro s hs hne
    have : s.isEmpty = false := by
      rcases hb : s.isEmpty
      · rfl
      · exact absurd ((String.isEmpty_iff s).mp hb) hne
    simp [resolveAwsScope, orTruthy, hs, this]
  · intro h
    rcases h with h | h <;> simp [resolveAwsScope, orTruthy, h, hemp]
  · intro s hs hne
    have : s.isEmpty = false := by
      rcases hb : s.isEmpty
      · rfl
      · exact absurd ((String.isEmpty_iff s).mp hb) hne
    simp [resolveAwsScope, orTruthy, hs, this]
  · intro h
    rcases h with h | h <;> simp [resolveAwsScope, orTruthy, h, hemp]

/-- Witness for C5 (amended) at the claim's concrete example. -/
theorem resolveAwsScope_amended_witness :
    (resolveAwsScope ⟨some "a", none⟩
        ⟨some (.str "b"), some (.str "c")⟩).profile = some "a" :=
  (resolveAwsScope_amended ⟨some "a", none⟩
      ⟨some (.str "b"), some (.str "c")⟩).1 "a" rfl (by decide)

lemma length_dropWhile_le {p : Char → Bool} :
    ∀ l : List Char, (List.dropWhile p l).length ≤ l.length := by
  intro l
  induction l with
  | nil => simp
  | cons c t ih =>
    rw [List.dropWhile_cons]
    by_cases hc : p c
    · rw [if_pos hc]
      exact Nat.le_trans ih (Nat.le_succ _)
    · rw [if_neg hc]

lemma dropWhile_cons_self {p : Char → Bool} (c : Char) (t : List Char)
    (h : List.dropWhile p (c :: t) = c :: t) : p c = false := by
  by_cases hb : p c
  · rw [List.dropWhile_cons, if_pos hb] at h
    have h1 := congrArg List.length h
    have h2 := length_dropWhile_le (p := p) t
    simp at h1
    omega
  · simpa using hb

lemma dropWhile_head_neg {p : Char → Bool} (c : Char) (t : List Char)
    (hc : p c = false) : List.dropWhile p (c :: t) = c :: t := by
  rw [List.dropWhile_cons, hc]
  simp

lemma trimStart_head_false (k : List Char) (c : Char) (t : List Char)
    (hk : trimStart k = k) (hkc : k = c :: t) : isWS c = false := by
  subst hkc
  exact dropWhile_cons_self c t hk

lemma trimEnd_fix_of_rev_head (x : List Char)
    (hx : List.dropWhile isWS x.reverse = x.reverse) : trimEnd x = x := by
  rw [trimEnd, hx, List.reverse_reverse]

lemma rev_dropWhile_fix_of_trimEnd (x : List Char) (hx : trimEnd x = x) :
    List.dropWhile isWS x.reverse = x.reverse := by
  have := congrArg List.reverse hx
  rw [trimEnd, List.reverse_reverse] at this
  exact this

lemma leadsWith_single (d c : Char) (rest : List Char) :
    leadsWith [d] (c :: rest) = (d == c) := by
  rw [leadsWith, leadsWith]
  simp

lemma leadsWith_append_cons (p : List Char) :
    ∀ (k : List Char) (c : Char) (v' : List Char),
      leadsWith p (k ++ c :: v') = true → leadsWith p k = true ∨ c ∈ p := by
  induction p with
  | nil => intro k c v' _; left; rfl
  | cons q qs ih =>
    intro k c v' h
    rcases k with _ | ⟨d, k'⟩
    · simp only [List.nil_append, leadsWith, Bool.and_eq_true, beq_iff_eq] at h
      exact Or.inr (by rw [h.1]; exact List.mem_cons_self _ _)
    · rw [List.cons_append, leadsWith, Bool.and_eq_true] at h
      rcases ih k' c v' h.2 with h2 | h2
      · exact Or.inl (by rw [leadsWith, Bool.and_eq_true]; exact ⟨h.1, h2⟩)
      · exact Or.inr (List.mem_cons_of_mem _ h2)

lemma findIdx?_sep (v : List Char) :
    ∀ k : List Char, '=' ∉ k →
      (k ++ '=' :: v).findIdx? (fun c => c = '=') = some k.length := by
  intro k
  induction k with
  | nil => intro _; simp
  | cons c k' ih =>
    intro hk
    have hc : c ≠ '=' := fun h => hk (h ▸ List.mem_cons_self _ _)
    rw [List.cons_append, List.findIdx?_cons, if_neg (by simp [hc])]
    rw [List.findIdx?_succ, ih (fun h => hk (List.mem_cons_of_mem _ h))]
    simp

/-- A serialized `KEY=value` line parses back to `(KEY, value)` when the key
and value are already trimmed, the key is non-empty, contains no `=`, and
does not begin like a comment or an `export ` token. -/
lemma parseEnvLine_good (k v : List Char) (n : Nat)
    (hk1 : trimStart k = k) (hk2 : trimEnd k = k) (hk0 : k ≠ [])
    (hkeq : '=' ∉ k) (hkh : leadsWith ['#'] k = false)
    (hke : leadsWith exportTok k = false)
    (hv1 : trimStart v = v) (hv2 : trimEnd v = v) :
    parseEnvLine (k ++ '=' :: v) n = .ok (some (k, v)) := by
  rcases k with _ | ⟨c, k'⟩
  · exact absurd rfl hk0
  · have hcws : isWS c = false := trimStart_head_false _ c k' hk1 rfl
    -- the whole line is already trimmed
    have htrimS : trimStart ((c :: k') ++ '=' :: v) = (c :: k') ++ '=' :: v := by
      rw [List.cons_append]
      exact dropWhile_head_neg c _ hcws
    have htrimE : trimEnd ((c :: k') ++ '=' :: v) = (c :: k') ++ '=' :: v := by
      apply trimEnd_fix_of_rev_head
      rw [List.reverse_append, List.reverse_cons, List.append_assoc]
      rcases hv : v.reverse with _ | ⟨d, t⟩
      · simp only [List.nil_append, List.singleton_append]
        exact dropWhile_head_neg '=' _ (by decide)
      · have hd : isWS d = false := by
          have hfix := rev_dropWhile_fix_of_trimEnd v hv2
          rw [hv] at hfix
          exact dropWhile_cons_self d t hfix
        rw [List.cons_append]
        exact dropWhile_head_neg d _ hd
    have htrim : trim ((c :: k') ++ '=' :: v) = (c :: k') ++ '=' :: v := by
      rw [trim, htrimS, htrimE]
    have hne : trim ((c :: k') ++ '=' :: v) ≠ [] := by
      rw [htrim]; simp
    have hhash : leadsWith ['#'] (trim ((c :: k') ++ '=' :: v)) = false := by
      rw [htrim, List.cons_append, leadsWith_single]
      rw [leadsWith_single] at hkh
      exact hkh
    have hexp' : leadsWith exportTok ((c :: k') ++ '=' :: v) = false := by
      by_cases hb : leadsWith exportTok ((c :: k') ++ '=' :: v)
      · rcases leadsWith_append_cons exportTok (c :: k') '=' v hb with h2 | h2
        · rw [hke] at h2; cases h2
        · exact absurd h2 (by decide)
      · simpa using hb
    have hcand : candidateOf ((c :: k') ++ '=' :: v) = (c :: k') ++ '=' :: v := by
      rw [candidateOf, htrim, hexp']
      simp
    have hfind : ((c :: k') ++ '=' :: v).findIdx? (fun x => x = '=') =
        some (c :: k').length := findIdx?_sep v (c :: k') hkeq
    have hkey : trim (((c :: k') ++ '=' :: v).take (c :: k').length) = c :: k' := by
      rw [List.take_left, trim, hk1, hk2]
    have hval : trim (((c :: k') ++ '=' :: v).drop ((c :: k').length + 1)) = v := by
      have h1 : ((c :: k') ++ '=' :: v).drop ((c :: k').length + 1) =
          (('=' :: v).drop 1) := by
        rw [← List.drop_drop 1 (c :: k').length, List.drop_left]
      rw [h1]
      simp only [List.drop_succ_cons, List.drop_zero]
      rw [trim, hv1, hv2]
    rw [parseEnvLine]
    simp only [hne, if_false, hhash, Bool.false_eq_true, hcand, hfind]
    have hlen : ¬ ((c :: k').length = 0) := by simp
    simp only [hlen, if_false, hkey, hval]
    simp

/-- Model of `objectToExport` (`src/vaults/utils.ts`, current variant): JS
`Object.entries(obj).reduce((env, [k, v]) => env + k + '=' + v + os.EOL, '')`,
with the platform line ending passed explicitly. -/
def objectToExport (obj : List (List Char × List Char)) (eol : List Char) :
    List Char :=
  obj.foldl (fun env p => env ++ (p.1 ++ ('=' :: p.2) ++ eol)) []

/-- Structural form of the serialized text: one line per pair. -/
def serLines : List (List Char × List Char) → List Char → List Char
  | [], _ => []
  | p :: rest, eol => (p.1 ++ ('=' :: p.2) ++ eol) ++ serLines rest eol

lemma foldl_serLines (eol : List Char) :
    ∀ (obj : List (List Char × List Char)) (acc : List Char),
      obj.foldl (fun env p => env ++ (p.1 ++ ('=' :: p.2) ++ eol)) acc =
        acc ++ serLines obj eol := by
  intro obj
  induction obj with
  | nil => intro acc; simp [serLines]
  | cons p rest ih =>
    intro acc
    rw [List.foldl_cons, ih, serLines, List.append_assoc]

lemma objectToExport_eq_serLines (obj : List (List Char × List Char))
    (eol : List Char) : objectToExport obj eol = serLines obj eol := by
  rw [objectToExport, foldl_serLines, List.nil_append]

lemma splitLines_cons_ne (c : Char) (rest : List Char) (h1 : c ≠ '\n')
    (h2 : c ≠ '\r') :
    splitLines (c :: rest) =
      match splitLines rest with
      | [] => [[c]]
      | line :: more => (c :: line) :: more := by
  rw [splitLines.eq_def]
  rcases rest with _ | ⟨d, rest'⟩
  · simp [h1, h2]
  · by_cases hd : d = '\n'
    · subst hd
      simp [h1, h2]
    · simp [h1, h2, hd]

/-- Splitting a serialized line off the front: `a` holds no line-ending
characters, `eol` is one of the two platform endings. -/
lemma splitLines_line (eol b : List Char)
    (heol : eol = ['\n'] ∨ eol = ['\r', '\n']) :
    ∀ a : List Char, '\n' ∉ a → '\r' ∉ a →
      splitLines (a ++ (eol ++ b)) = a :: splitLines b := by
  intro a
  induction a with
  | nil =>
    intro _ _
    rcases heol with h | h <;> subst h <;> rfl
  | cons c a' ih =>
    intro hn hr
    have hc1 : c ≠ '\n' := fun h => hn (h ▸ List.mem_cons_self _ _)
    have hc2 : c ≠ '\r' := fun h => hr (h ▸ List.mem_cons_self _ _)
    rw [List.cons_append,
        splitLines_cons_ne c _ hc1 hc2,
        ih (fun h => hn (List.mem_cons_of_mem _ h))
           (fun h => hr (List.mem_cons_of_mem _ h))]

/-- Well-formedness of a key for the round trip: already trimmed, non-empty,
no `=` or line-ending characters, and no comment or `export ` lead. -/
def goodKey (k : List Char) : Prop :=
  trimStart k = k ∧ trimEnd k = k ∧ k ≠ [] ∧ '=' ∉ k ∧ '\n' ∉ k ∧ '\r' ∉ k ∧
  leadsWith ['#'] k = false ∧ leadsWith exportTok k = false

/-- Well-formedness of a value for the round trip: already trimmed and free
of line-ending characters. -/
def goodVal (v : List Char) : Prop :=
  trimStart v = v ∧ trimEnd v = v ∧ '\n' ∉ v ∧ '\r' ∉ v

instance (k : List Char) : Decidable (goodKey k) := by
  rw [goodKey]; infer_instance

instance (v : List Char) : Decidable (goodVal v) := by
  rw [goodVal]; infer_instance

lemma parseLines_serLines (eol : List Char)
    (heol : eol = ['\n'] ∨ eol = ['\r', '\n']) :
    ∀ (obj : List (List Char × List Char)) (n : Nat)
      (seen : List (List Char)),
      (∀ p ∈ obj, goodKey p.1 ∧ goodVal p.2) →
      (obj.map Prod.fst).Nodup →
      (∀ p ∈ obj, p.1 ∉ seen) →
      ∃ entries, parseLines (splitLines (serLines obj eol)) n seen =
          .ok ⟨entries, []⟩ ∧
        entries.map (fun e => (e.key, e.value)) = obj := by
  intro obj
  induction obj with
  | nil =>
    intro n seen _ _ _
    exact ⟨[], rfl, rfl⟩
  | cons p rest ih =>
    intro n seen hgood hnodup hseen
    rcases p with ⟨k, v⟩
    rcases hgood ⟨k, v⟩ (List.mem_cons_self _ _) with
      ⟨⟨hk1, hk2, hk0, hkeq, hkn, hkr, hkh, hke⟩, hv1, hv2, hvn, hvr⟩
    have hline : serLines (⟨k, v⟩ :: rest) eol =
        (k ++ '=' :: v) ++ (eol ++ serLines rest eol) := by
      rw [serLines]
      simp [List.append_assoc]
    have hnoN : '\n' ∉ k ++ '=' :: v := by
      intro h
      rcases List.mem_append.mp h with h | h
      · exact hkn h
      · rcases List.mem_cons.mp h with h | h
        · exact absurd h (by decide)
        · exact hvn h
    have hnoR : '\r' ∉ k ++ '=' :: v := by
      intro h
      rcases List.mem_append.mp h with h | h
      · exact hkr h
      · rcases List.mem_cons.mp h with h | h
        · exact absurd h (by decide)
        · exact hvr h
    have hkseen : k ∉ seen := hseen ⟨k, v⟩ (List.mem_cons_self _ _)
    have hknotrest : k ∉ rest.map Prod.fst := by
      rw [List.map_cons, List.nodup_cons] at hnodup
      exact hnodup.1
    rcases ih (n + 1) (k :: seen)
        (fun p hp => hgood p (List.mem_cons_of_mem _ hp))
        (by rw [List.map_cons, List.nodup_cons] at hnodup; exact hnodup.2)
        (fun p hp => by
          intro hmem
          rcases List.mem_cons.mp hmem with h | h
          · exact hknotrest (h ▸ List.mem_map_of_mem Prod.fst hp)
          · exact hseen p (List.mem_cons_of_mem _ hp) h) with
      ⟨entries', hrec, hmap⟩
    refine ⟨⟨k, v, n⟩ :: entries', ?_, ?_⟩
    · rw [hline, splitLines_line eol (serLines rest eol) heol _ hnoN hnoR,
          parseLines_cons,
          parseEnvLine_good k v n hk1 hk2 hk0 hkeq hkh hke hv1 hv2]
      simp only [if_neg hkseen]
      rw [hrec]
    · rw [List.map_cons, hmap]

/-- Counterexample to C2 as stated: the map `{"#K": "v"}` has no embedded
newlines in its value, yet serializing and re-parsing loses the pair — the
serialized line is taken for a comment. -/
theorem objectToExport_roundTrip_counterexample :
    parseEnvSecrets (objectToExport [("#K".toList, "v".toList)] ['\n']) =
      .ok ⟨[], []⟩ ∧
    (ParsedEnvSecrets.mk [] []).entries.map (fun e => (e.key, e.value)) ≠
      [("#K".toList, "v".toList)] := by
  constructor
  · decide
  · decide

/-- C2 (amended): serializing a map with `objectToExport` (one `KEY=value`
line per pair, platform line ending) and parsing the text back recovers
exactly the original pairs, provided each key is trimmed, non-empty, free of
`=` and line endings, and does not begin with `#` or `export `, each value is
trimmed and free of line endings, and the keys are pairwise distinct. -/
theorem objectToExport_parse_roundTrip (obj : List (List Char × List Char))
    (eol : List Char) (heol : eol = ['\n'] ∨ eol = ['\r', '\n'])
    (hgood : ∀ p ∈ obj, goodKey p.1 ∧ goodVal p.2)
    (hnodup : (obj.map Prod.fst).Nodup) :
    ∃ r, parseEnvSecrets (objectToExport obj eol) = .ok r ∧
      r.entries.map (fun e => (e.key, e.value)) = obj ∧ r.skipped = [] := by
  rw [objectToExport_eq_serLines, parseEnvSecrets]
  rcases parseLines_serLines eol heol obj 1 [] hgood hnodup
      (fun p _ => List.not_mem_nil _) with ⟨entries, h1, h2⟩
  exact ⟨⟨entries, []⟩, h1, h2, rfl⟩

/-- Witness for C2 (amended) at a concrete two-secret map. -/
theorem objectToExport_parse_roundTrip_witness :
    ∃ r, parseEnvSecrets (objectToExport
        [("API_KEY".toList, "secret1".toList),
         ("DATABASE_URL".toList, "postgres://db".toList)] ['\n']) = .ok r ∧
      r.entries.map (fun e => (e.key, e.value)) =
        [("API_KEY".toList, "secret1".toList),
         ("DATABASE_URL".toList, "postgres://db".toList)] ∧ r.skipped = [] :=
  objectToExport_parse_roundTrip
    [("API_KEY".toList, "secret1".toList),
     ("DATABASE_URL".toList, "postgres://db".toList)] ['\n'] (Or.inl rfl)
    (by decide) (by decide)

/-! ### Vault adapter (`src/vaults/secretsmanager-admin.ts`)

AWS SDK responses are supplied by an explicit oracle; the error translation
of `mapAwsError` and the ISO rendering of dates are abstracted into the
oracle's already-shaped values. The validation logic (`validateSecretName`,
`parseTags`) and the client-side filtering/pagination of `listSecrets` are
translated from the source. -/

/-- Domain errors raised by the adapter before or around vault calls. -/
inductive AdminError where
  | invalidName (name : List Char)
  | invalidTag (tag : List Char)
  | vault (msg : List Char)
  deriving DecidableEq, Repr

/-- A character admitted by `SECRET_NAME_PATTERN = /^[A-Za-z0-9/_+=.@-]+$/`. -/
def isAllowedNameChar (c : Char) : Bool :=
  ('A' ≤ c && c ≤ 'Z') || ('a' ≤ c && c ≤ 'z') || ('0' ≤ c && c ≤ '9') ||
  c == '/' || c == '_' || c == '+' || c == '=' || c == '.' || c == '@' ||
  c == '-'

/-- `SECRET_NAME_PATTERN.test(name)`: non-empty and all characters allowed. -/
def validSecretName (name : List Char) : Bool :=
  !name.isEmpty && name.all isAllowedNameChar

/-- Model of `validateSecretName`. -/
def validateSecretName (name : List Char) : Except AdminError Unit :=
  if validSecretName name then .ok () else .error (.invalidName name)

/-- Model of `tag.split('=')` (split on every `=`). -/
def splitOnEq : List Char → List (List Char)
  | [] => [[]]
  | '=' :: rest => [] :: splitOnEq rest
  | c :: rest =>
    match splitOnEq rest with
    | [] => [[c]]
    | p :: ps => (c :: p) :: ps

/-- Model of `parts.join('=')`. -/
def joinEq : List (List Char) → List Char
  | [] => []
  | [x] => x
  | x :: xs => x ++ '=' :: joinEq xs

/-- One parsed `key=value` tag. -/
structure TagKV where
  key : List Char
  value : List Char
  deriving DecidableEq, Repr

/-- Model of the per-tag body of `parseTags`. -/
def parseTag (tag : List Char) : Except AdminError TagKV :=
  match splitOnEq tag with
  | [] => .error (.invalidTag tag)
  | p0 :: restParts =>
    if restParts = [] then .error (.invalidTag tag)
    else
      let key := trim p0
      let value := trim (joinEq restParts)
      if key = [] ∨ value = [] then .error (.invalidTag tag)
      else .ok ⟨key, value⟩

/-- Model of `parseTags`: `undefined` or an empty array yields `undefined`;
otherwise every tag string is parsed, failing on the first bad one. -/
def parseTags (tags : Option (List (List Char))) :
    Except AdminError (Option (List TagKV)) :=
  match tags with
  | none => .ok none
  | some l =>
    if l = [] then .ok none
    else
      match l.mapM parseTag with
      | .error e => .error e
      | .ok ts => .ok (some ts)

/-- JS truthiness of a `string | undefined` modelled as char lists. -/
def ltruthy : Option (List Char) → Bool
  | none => false
  | some s => !s.isEmpty

/-- Result record of `createSecret`/`updateSecret`. -/
structure CreateResult where
  arn : Option (List Char)
  name : Option (List Char)
  versionId : Option (List Char)
  deriving DecidableEq, Repr

/-- Result record of `deleteSecret`. -/
structure DeleteResult where
  arn : Option (List Char)
  name : Option (List Char)
  deletedDate : Option (List Char)
  deriving DecidableEq, Repr

/-- Result record of `getSecretMetadata` (all fields already rendered). -/
structure MetadataResult where
  name : Option (List Char)
  arn : Option (List Char)
  description : Option (List Char)
  kmsKeyId : Option (List Char)
  deriving DecidableEq, Repr

/-- The network oracle for the administrative operations: the
`createClient`/`ensureConnected` step and one already-translated response per
command kind. -/
structure AdminNet where
  connect : Except AdminError Unit
  createResp : Except AdminError CreateResult
  updateResp : Except AdminError CreateResult
  describeResp : Except AdminError MetadataResult
  deleteResp : Except AdminError DeleteResult

/-- Options of `createSecret`. -/
structure SecretCreateOptions where
  name : List Char
  value : List Char
  description : Option (List Char)
  kmsKeyId : Option (List Char)
  tags : Option (List (List Char))

/-- Options of `updateSecret`. -/
structure SecretUpdateOptions where
  name : List Char
  value : Option (List Char)
  description : Option (List Char)
  kmsKeyId : Option (List Char)

/-- Options of `deleteSecret`. -/
structure SecretDeleteOptions where
  name : List Char
  recoveryDays : Option Nat
  forceDeleteWithoutRecovery : Bool

/-- Model of `createSecret`: validate the name, build/connect the client,
parse the tags, then send. -/
def createSecret (net : AdminNet) (options : SecretCreateOptions) :
    Except AdminError CreateResult := do
  validateSecretName options.name
  net.connect
  let _ ← parseTags options.tags
  net.createResp

/-- Model of `updateSecret`. -/
def updateSecret (net : AdminNet) (options : SecretUpdateOptions) :
    Except AdminError CreateResult := do
  validateSecretName options.name
  net.connect
  net.updateResp

/-- Model of `getSecretMetadata`. -/
def getSecretMetadata (net : AdminNet) (options : List Char) :
    Except AdminError MetadataResult := do
  validateSecretName options
  net.connect
  net.describeResp

/-- Model of `deleteSecret`. -/
def deleteSecret (net : AdminNet) (options : SecretDeleteOptions) :
    Except AdminError DeleteResult := do
  validateSecretName options.name
  net.connect
  net.deleteResp

/-- C6: every adapter operation on an invalid secret name fails with the
invalid-name error whatever the network oracle does — so before any client
is constructed or call is made; and `validSecretName` accepts
`"app/dev/key-1"` and rejects `"bad name with spaces"`. -/
theorem admin_ops_validate_name_first :
    (∀ (net : AdminNet) (options : SecretCreateOptions),
      validSecretName options.name = false →
      createSecret net options = .error (.invalidName options.name)) ∧
    (∀ (net : AdminNet) (options : SecretUpdateOptions),
      validSecretName options.name = false →
      updateSecret net options = .error (.invalidName options.name)) ∧
    (∀ (net : AdminNet) (name : List Char),
      validSecretName name = false →
      getSecretMetadata net name = .error (.invalidName name)) ∧
    (∀ (net : AdminNet) (options : SecretDeleteOptions),
      validSecretName options.name = false →
      deleteSecret net options = .error (.invalidName options.name)) ∧
    validSecretName "app/dev/key-1".toList = true ∧
    validSecretName "bad name with spaces".toList = false := by
  refine ⟨?_, ?_, ?_, ?_, by decide, by decide⟩
  · intro net options h
    simp [createSecret, validateSecretName, h, Bind.bind, Except.bind]
  · intro net options h
    simp [updateSecret, validateSecretName, h, Bind.bind, Except.bind]
  · intro net name h
    simp [getSecretMetadata, validateSecretName, h, Bind.bind, Except.bind]
  · intro net options h
    simp [deleteSecret, validateSecretName, h, Bind.bind, Except.bind]

/-- Witness for C6 at the rejected name `"bad name with spaces"`. -/
theorem admin_ops_validate_name_first_witness :
    createSecret
        ⟨.ok (), .ok ⟨none, none, none⟩, .ok ⟨none, none, none⟩,
         .ok ⟨none, none, none, none⟩, .ok ⟨none, none, none⟩⟩
        ⟨"bad name with spaces".toList, "v".toList, none, none, none⟩ =
      .error (.invalidName "bad name with spaces".toList) :=
  admin_ops_validate_name_first.1
    ⟨.ok (), .ok ⟨none, none, none⟩, .ok ⟨none, none, none⟩,
     .ok ⟨none, none, none, none⟩, .ok ⟨none, none, none⟩⟩
    ⟨"bad name with spaces".toList, "v".toList, none, none, none⟩ (by decide)

/-- A raw AWS tag (`Tag` with optional `Key`/`Value`). -/
structure RawTag where
  key : Option (List Char)
  value : Option (List Char)
  deriving DecidableEq, Repr

/-- A raw secret of a `ListSecrets` page (`SecretListEntry`); the changed
date is carried already rendered. -/
structure RawSecret where
  name : Option (List Char)
  arn : Option (List Char)
  description : Option (List Char)
  lastChangedDate : Option (List Char)
  tags : Option (List RawTag)
  deriving DecidableEq, Repr

/-- One `ListSecrets` response: the page and its continuation token. -/
structure PageResp where
  secretList : Option (List RawSecret)
  nextToken : Option (List Char)
  deriving DecidableEq, Repr

/-- Summary row produced by `listSecrets`. -/
structure SecretSummary where
  name : List Char
  arn : Option (List Char)
  description : Option (List Char)
  lastChangedDate : Option (List Char)
  deriving DecidableEq, Repr

/-- JS record assignment `r[k] = v` on an insertion-ordered record. -/
def recSet (r : List (List Char × List Char)) (k v : List Char) :
    List (List Char × List Char) :=
  match r with
  | [] => [(k, v)]
  | p :: rest => if p.1 = k then (k, v) :: rest else p :: recSet rest k v

/-- JS record lookup `r[k]`. -/
def recGet (r : List (List Char × List Char)) (k : List Char) :
    Option (List Char) :=
  match r with
  | [] => none
  | p :: rest => if p.1 = k then some p.2 else recGet rest k

/-- Model of `tagsToRecord`: tags with falsy key or value are dropped, later
duplicate keys overwrite, and an absent/empty result is `undefined`. -/
def tagsToRecord (tags : Option (List RawTag)) :
    Option (List (List Char × List Char)) :=
  match tags with
  | none => none
  | some l =>
    if l = [] then none
    else
      let result := l.foldl (fun acc t =>
        match t.key, t.value with
        | some k, some v =>
          if !k.isEmpty && !v.isEmpty then recSet acc k v else acc
        | _, _ => acc) []
      if result = [] then none else some result

/-- `available?.[k]` for a secret's tag record. -/
def availGet (s : RawSecret) (k : List Char) : Option (List Char) :=
  match tagsToRecord s.tags with
  | none => none
  | some r => recGet r k

/-- The body of the `listSecrets` page loop deciding whether a secret is
kept: the name filter skips only when the requested start-text, the name,
and the mismatch are all truthy; the tag filter requires every requested
tag to match exactly. -/
def keepSecret (pfx : Option (List Char)) (req : Option (List TagKV))
    (s : RawSecret) : Bool :=
  if ltruthy pfx && ltruthy s.name &&
      !(leadsWith (pfx.getD []) (s.name.getD [])) then false
  else
    match req with
    | some ts =>
      if ts.length > 0 then
        ts.all fun t =>
          !t.key.isEmpty && !t.value.isEmpty &&
            (availGet s t.key == some t.value)
      else true
    | none => true

/-- The summary pushed for a kept secret (`secret.Name || ''` etc.). -/
def renderSummary (s : RawSecret) : SecretSummary :=
  { name := s.name.getD []
    arn := s.arn
    description := s.description
    lastChangedDate := s.lastChangedDate }

/-- The `do … while (nextToken)` loop of `listSecrets` over the oracle's
successive responses. -/
def listLoop (pfx : Option (List Char)) (req : Option (List TagKV)) :
    List PageResp → List SecretSummary
  | [] => []
  | page :: rest =>
    ((page.secretList.getD []).filter (keepSecret pfx req)).map renderSummary
      ++ (if ltruthy page.nextToken then listLoop pfx req rest else [])

/-- Options of `listSecrets`: the name start-text and the requested tags. -/
structure SecretListOptions where
  pfx : Option (List Char)
  tags : Option (List (List Char))

/-- Model of `listSecrets`: connect, parse the requested tags, then follow
the pagination loop. -/
def listSecrets (options : SecretListOptions) (connect : Except AdminError Unit)
    (pages : List PageResp) : Except AdminError (List SecretSummary) := do
  connect
  match parseTags options.tags with
  | .error e => .error e
  | .ok req => .ok (listLoop options.pfx req pages)

/-- The responses actually consumed by the loop: every response up to and
including the first one without a truthy continuation token. -/
def consumedPages : List PageResp → List PageResp
  | [] => []
  | p :: rest => p :: (if ltruthy p.nextToken then consumedPages rest else [])

/-- The accumulation of kept, rendered secrets across a run of pages. -/
def pagesOut (pfx : Option (List Char)) (req : Option (List TagKV)) :
    List PageResp → List SecretSummary
  | [] => []
  | p :: rest =>
    ((p.secretList.getD []).filter (keepSecret pfx req)).map renderSummary
      ++ pagesOut pfx req rest

lemma listLoop_eq_pagesOut (pfx : Option (List Char))
    (req : Option (List TagKV)) :
    ∀ pages : List PageResp,
      listLoop pfx req pages = pagesOut pfx req (consumedPages pages) := by
  intro pages
  induction pages with
  | nil => rfl
  | cons p rest ih =>
    rw [listLoop, consumedPages]
    by_cases ht : ltruthy p.nextToken
    · rw [if_pos ht, if_pos ht, ih, pagesOut]
    · rw [if_neg ht, if_neg ht]
      rfl

lemma pagesOut_mem (pfx : Option (List Char)) (req : Option (List TagKV)) :
    ∀ (ps : List PageResp) (x : SecretSummary),
      x ∈ pagesOut pfx req ps ↔
        ∃ p ∈ ps, ∃ s ∈ p.secretList.getD [],
          keepSecret pfx req s = true ∧ x = renderSummary s := by
  intro ps
  induction ps with
  | nil => intro x; simp [pagesOut]
  | cons p rest ih =>
    intro x
    rw [pagesOut, List.mem_append]
    constructor
    · intro h
      rcases h with h | h
      · rcases List.mem_map.mp h with ⟨s, hs, hx⟩
        rcases List.mem_filter.mp hs with ⟨hs1, hs2⟩
        exact ⟨p, List.mem_cons_self _ _, s, hs1, hs2, hx.symm⟩
      · rcases (ih x).mp h with ⟨p', hp', s, hs, hk, hx⟩
        exact ⟨p', List.mem_cons_of_mem _ hp', s, hs, hk, hx⟩
    · intro h
      rcases h with ⟨p', hp', s, hs, hk, hx⟩
      rcases List.mem_cons.mp hp' with hp' | hp'
      · subst hp'
        exact Or.inl (List.mem_map.mpr ⟨s, List.mem_filter.mpr ⟨hs, hk⟩, hx.symm⟩)
      · exact Or.inr ((ih x).mpr ⟨p', hp', s, hs, hk, hx⟩)

lemma keepSecret_none (pfx : Option (List Char)) (s : RawSecret) :
    keepSecret pfx none s =
      if ltruthy pfx && ltruthy s.name &&
          !(leadsWith (pfx.getD []) (s.name.getD [])) then false
      else true := rfl

lemma keepSecret_some (pfx : Option (List Char)) (ts : List TagKV)
    (s : RawSecret) :
    keepSecret pfx (some ts) s =
      if ltruthy pfx && ltruthy s.name &&
          !(leadsWith (pfx.getD []) (s.name.getD [])) then false
      else if ts.length > 0 then
        ts.all fun t =>
          !t.key.isEmpty && !t.value.isEmpty &&
            (availGet s t.key == some t.value)
      else true := rfl

/-- Counterexample to C7 as stated: with a name filter set, a secret whose
`Name` is absent is still returned (as the empty name), although the empty
name does not start with the requested text — the filter only applies when
the name is truthy. -/
theorem listSecrets_name_filter_counterexample :
    listSecrets ⟨some "app".toList, none⟩ (.ok ())
        [⟨some [⟨none, none, none, none, none⟩], none⟩] =
      .ok [⟨[], none, none, none⟩] ∧
    leadsWith "app".toList ([] : List Char) = false := by
  constructor
  · decide
  · decide

/-- C7 (amended): on a successful tag parse, `listSecrets` returns exactly
the secrets of the consumed responses (each response up to and including the
first without a truthy continuation token) that pass the filters, rendered
in order; a secret passes iff (a) whenever a name start-text is set and the
secret's name is truthy, the name starts with that text, and (b) every
requested tag has non-empty key and value and its key maps to exactly its
value in the secret's effective tag record. -/
theorem listSecrets_filter_spec (options : SecretListOptions)
    (connect : Except AdminError Unit) (pages : List PageResp)
    (req : Option (List TagKV))
    (hc : connect = .ok ()) (hreq : parseTags options.tags = .ok req) :
    listSecrets options connect pages =
      .ok (pagesOut options.pfx req (consumedPages pages)) ∧
    (∀ x, x ∈ pagesOut options.pfx req (consumedPages pages) ↔
      ∃ p ∈ consumedPages pages, ∃ s ∈ p.secretList.getD [],
        keepSecret options.pfx req s = true ∧ x = renderSummary s) ∧
    (∀ s : RawSecret,
      keepSecret options.pfx req s = true ↔
        ((ltruthy options.pfx = true ∧ ltruthy s.name = true) →
          leadsWith (options.pfx.getD []) (s.name.getD []) = true) ∧
        (∀ ts, req = some ts → ∀ t ∈ ts,
          t.key ≠ [] ∧ t.value ≠ [] ∧ availGet s t.key = some t.value)) := by
  refine ⟨?_, fun x => pagesOut_mem options.pfx req (consumedPages pages) x,
          ?_⟩
  · rw [hc, listSecrets]
    simp only [Bind.bind, Except.bind, hreq]
    rw [listLoop_eq_pagesOut]
  · intro s
    by_cases hA : (ltruthy options.pfx && ltruthy s.name &&
        !(leadsWith (options.pfx.getD []) (s.name.getD []))) = true
    · have hkeep : keepSecret options.pfx req s = false := by
        rcases req with _ | ts
        · rw [keepSecret_none, if_pos hA]
        · rw [keepSecret_some, if_pos hA]
      rw [hkeep]
      simp only [Bool.and_eq_true, Bool.not_eq_true'] at hA
      constructor
      · intro hfalse; cases hfalse
      · intro h
        rw [h.1 ⟨hA.1.1, hA.1.2⟩] at hA
        cases hA.2
    · have h1 : (ltruthy options.pfx = true ∧ ltruthy s.name = true) →
          leadsWith (options.pfx.getD []) (s.name.getD []) = true := by
        intro hpn
        rcases hb : leadsWith (options.pfx.getD []) (s.name.getD []) with _ | _
        · exfalso
          apply hA
          rw [hpn.1, hpn.2, hb]
          rfl
        · rfl
      rcases req with _ | ts
      · rw [keepSecret_none, if_neg hA]
        constructor
        · intro _
          exact ⟨h1, fun ts hts => by cases hts⟩
        · intro _; rfl
      · rw [keepSecret_some, if_neg hA]
        rcases Nat.eq_zero_or_pos ts.length with hlen | hlen
        · have hts0 : ts = [] := List.length_eq_zero.mp hlen
          subst hts0
          simp only [List.length_nil, gt_iff_lt, Nat.lt_irrefl, if_false]
          constructor
          · intro _
            refine ⟨h1, fun ts' hts' t ht => ?_⟩
            cases hts'
            simp at ht
          · intro _; trivial
        · rw [if_pos hlen]
          simp only [List.all_eq_true, Bool.and_eq_true, Bool.not_eq_true',
            beq_iff_eq, List.isEmpty_eq_false]
          constructor
          · intro hall
            refine ⟨h1, fun ts' hts' t ht => ?_⟩
            cases hts'
            rcases hall t ht with ⟨⟨hk, hv⟩, hav⟩
            exact ⟨hk, hv, hav⟩
          · intro h t ht
            rcases h.2 ts rfl t ht with ⟨hk, hv, hav⟩
            exact ⟨⟨hk, hv⟩, hav⟩

/-- Witness for C7 (amended): a two-page run with a continuation token, a
name filter, and one matching tag. -/
theorem listSecrets_filter_spec_witness :
    listSecrets ⟨some "app".toList, some ["env=dev".toList]⟩ (.ok ())
        [⟨some [⟨some "app/a".toList, none, none, none,
                 some [⟨some "env".toList, some "dev".toList⟩]⟩,
                ⟨some "other/b".toList, none, none, none,
                 some [⟨some "env".toList, some "dev".toList⟩]⟩],
          some "t1".toList⟩,
         ⟨some [⟨some "app/c".toList, none, none, none,
                 some [⟨some "env".toList, some "prod".toList⟩]⟩],
          none⟩] =
      .ok (pagesOut (some "app".toList) (some [⟨"env".toList, "dev".toList⟩])
        (consumedPages
          [⟨some [⟨some "app/a".toList, none, none, none,
                   some [⟨some "env".toList, some "dev".toList⟩]⟩,
                  ⟨some "other/b".toList, none, none, none,
                   some [⟨some "env".toList, some "dev".toList⟩]⟩],
            some "t1".toList⟩,
           ⟨some [⟨some "app/c".toList, none, none, none,
                   some [⟨some "env".toList, some "prod".toList⟩]⟩],
            none⟩])) :=
  (listSecrets_filter_spec ⟨some "app".toList, some ["env=dev".toList]⟩
    (.ok ())
    [⟨some [⟨some "app/a".toList, none, none, none,
             some [⟨some "env".toList, some "dev".toList⟩]⟩,
            ⟨some "other/b".toList, none, none, none,
             some [⟨some "env".toList, some "dev".toList⟩]⟩],
      some "t1".toList⟩,
     ⟨some [⟨some "app/c".toList, none, none, none,
             some [⟨some "env".toList, some "prod".toList⟩]⟩],
      none⟩]
    (some [⟨"env".toList, "dev".toList⟩]) rfl (by decide)).1

/-! ### File-output branch of the `aws` command (`src/index.ts`) -/

/-- A file on disk: its content and its permission bits. -/
structure FileRecord where
  content : List Char
  mode : Nat
  deriving DecidableEq, Repr

/-- Outcome of the output-file branch: the resulting file system, the exit
code, and the error message printed to standard error, if any. -/
structure CmdOutcome where
  fs : String → Option FileRecord
  exit : Nat
  errorMsg : Option String

/-- Model of the `options.output` branch of the `aws` command action:
`existsSync` → report and exit 1; otherwise `writeFileSync` of
`objectToExport(secrets)` with mode `0o400`. -/
def outputFileBranch (fs : String → Option FileRecord) (path : String)
    (secrets : List (List Char × List Char)) (eol : List Char) : CmdOutcome :=
  if (fs path).isSome then
    { fs := fs
      exit := 1
      errorMsg := some ("Error: File " ++ path ++
        " already exists and will not be overwritten") }
  else
    { fs := fun p =>
        if p = path then some ⟨objectToExport secrets eol, 0o400⟩ else fs p
      exit := 0
      errorMsg := none }

/-- C8: if the target file exists the command exits with code 1, reports an
error, and leaves the whole file system (in particular the target file)
unchanged; otherwise it creates the target with the serialized `KEY=value`
lines and owner-read-only mode `0o400`. -/
theorem outputFileBranch_spec (fs : String → Option FileRecord) (path : String)
    (secrets : List (List Char × List Char)) (eol : List Char) :
    (∀ f, fs path = some f →
      (outputFileBranch fs path secrets eol).exit = 1 ∧
      (outputFileBranch fs path secrets eol).errorMsg =
        some ("Error: File " ++ path ++
          " already exists and will not be overwritten") ∧
      (outputFileBranch fs path secrets eol).fs = fs ∧
      (outputFileBranch fs path secrets eol).fs path = some f) ∧
    (fs path = none →
      (outputFileBranch fs path secrets eol).exit = 0 ∧
      (outputFileBranch fs path secrets eol).fs path =
        some ⟨objectToExport secrets eol, 0o400⟩) := by
  constructor
  · intro f hf
    have hsome : (fs path).isSome = true := by rw [hf]; rfl
    rw [outputFileBranch, if_pos hsome]
    exact ⟨rfl, rfl, rfl, hf⟩
  · intro hf
    have hnone : ¬ (fs path).isSome = true := by rw [hf]; simp
    rw [outputFileBranch, if_neg hnone]
    exact ⟨rfl, by simp⟩

/-- Witness for C8: an occupied path is refused with exit 1 and kept intact;
an empty file system receives the serialized secrets with mode `0o400`. -/
theorem outputFileBranch_spec_witness :
    (outputFileBranch
        (fun p => if p = "out.env" then some ⟨"X".toList, 0o400⟩ else none)
        "out.env" [("A".toList, "1".toList)] ['\n']).exit = 1 ∧
    (outputFileBranch (fun _ => none) "out.env"
        [("A".toList, "1".toList)] ['\n']).fs "out.env" =
      some ⟨objectToExport [("A".toList, "1".toList)] ['\n'], 0o400⟩ :=
  ⟨((outputFileBranch_spec
      (fun p => if p = "out.env" then some ⟨"X".toList, 0o400⟩ else none)
      "out.env" [("A".toList, "1".toList)] ['\n']).1 ⟨"X".toList, 0o400⟩
      (by simp)).1,
   ((outputFileBranch_spec (fun _ => none) "out.env"
      [("A".toList, "1".toList)] ['\n']).2 rfl).2⟩

/-! ### Secret-injection mode (`src/vaults/secretsmanager.ts`) -/

/-- The world seen by the injection-mode `secretsmanager`: the result of the
`GetCallerIdentity` connectivity probe (`checkConnection` catches its own
errors and yields a boolean), the `GetSecretValue` response (an error name,
or an optional `SecretString`), and `JSON.parse` outcomes (`none` models a
parse throw). -/
structure InjNet where
  connected : Bool
  getSecret : Except (List Char) (Option (List Char))
  jsonParse : List Char → Option (List (List Char × List Char))

/-- Model of the injection-mode `secretsmanager`: every vault failure is
caught and logged, and the function falls through to `return {}`; the
`Except` codomain shows that no error is ever propagated. -/
def secretsmanager (net : InjNet) :
    Except (List Char) (List (List Char × List Char)) :=
  if net.connected then
    match net.getSecret with
    | .error _ => .ok []
    | .ok none => .ok []
    | .ok (some sv) =>
      match net.jsonParse sv with
      | some obj => .ok obj
      | none => .ok []
  else .ok []

/-- C9: `secretsmanager` never propagates a vault error — it always returns
a mapping — and every failure (connectivity, secret retrieval including
not-found, JSON parse) yields the empty mapping. -/
theorem secretsmanager_nonfatal (net : InjNet) :
    (∃ m, secretsmanager net = .ok m) ∧
    (net.connected = false → secretsmanager net = .ok []) ∧
    (∀ e, net.getSecret = .error e → secretsmanager net = .ok []) ∧
    (net.getSecret = .ok none → secretsmanager net = .ok []) ∧
    (∀ sv, net.getSecret = .ok (some sv) → net.jsonParse sv = none →
      secretsmanager net = .ok []) := by
  refine ⟨?_, ?_, ?_, ?_, ?_⟩
  · rw [secretsmanager]
    by_cases hc : net.connected
    · rw [if_pos hc]
      rcases hg : net.getSecret with e | o
      · exact ⟨[], rfl⟩
      · rcases o with _ | sv
        · exact ⟨[], rfl⟩
        · rcases hj : net.jsonParse sv with _ | obj
          · exact ⟨[], by simp [hj]⟩
          · exact ⟨obj, by simp [hj]⟩
    · rw [if_neg hc]
      exact ⟨[], rfl⟩
  · intro hc
    rw [secretsmanager, hc]
    rfl
  · intro e he
    rw [secretsmanager, he]
    by_cases hc : net.connected <;> simp [hc]
  · intro he
    rw [secretsmanager, he]
    by_cases hc : net.connected <;> simp [hc]
  · intro sv he hj
    rw [secretsmanager, he]
    by_cases hc : net.connected
    · rw [if_pos hc]
      simp [hj]
    · rw [if_neg hc]

/-- Witness for C9: a not-found error from the vault yields the empty
mapping. -/
theorem secretsmanager_nonfatal_witness :
    secretsmanager
        ⟨true, .error "ResourceNotFoundException".toList, fun _ => none⟩ =
      .ok [] :=
  (secretsmanager_nonfatal
      ⟨true, .error "ResourceNotFoundException".toList, fun _ => none⟩).2.2.1
    "ResourceNotFoundException".toList rfl

end EnvSecrets
